import Mathlib

/-!
Verification of the spec-kit template cache / extraction pipeline and the
delimited-section document merger against the Go sources.

Documents and paths are modelled as lists of characters (`Str`); the Go
code slices byte strings only at marker-occurrence boundaries, and the
markers are ASCII, so rune-level and byte-level slicing agree on every
slice the code takes.  Filesystems are modelled as association lists from
path to content in which the most recent write shadows older ones, which
matches `os.OpenFile(..., O_TRUNC, ...)` overwrite semantics.
-/

namespace SpecKit

/-- Documents, paths and file contents: a string as a list of runes. -/
abbrev Str := List Char

/-- Model of Go `strings.Index`: index of the first occurrence of `pat`
in `s`, `none` when there is no occurrence (Go returns `-1`). -/
def strIndex : Str → Str → Option Nat
  | s, pat =>
    if pat.isPrefixOf s then some 0
    else
      match s with
      | [] => none
      | _ :: t => (strIndex t pat).map (· + 1)

/-- `pat` occurs in `s` starting at position `j`. -/
def occursAt (pat s : Str) (j : Nat) : Prop := (s.drop j).take pat.length = pat

instance (pat s : Str) (j : Nat) : Decidable (occursAt pat s j) := by
  unfold occursAt; infer_instance

/-- The opening marker of the generated Codex section (`writer.go`). -/
def codexStartMarker : Str := "<!-- specify-codex-start -->".toList

/-- The closing marker of the generated Codex section (`writer.go`). -/
def codexEndMarker : Str := "<!-- specify-codex-end -->".toList

/-- Model of `AgentsGenerator.generateDelimitedCodexSection`: the generated
Codex section wrapped in the two markers.  The section body
(`generateCodexSection`, a fixed text derived from the generator's command
list) is taken as the parameter `codexContent`. -/
def generateDelimitedCodexSection (codexContent : Str) : Str :=
  codexStartMarker ++ '\n' :: (codexContent ++ '\n' :: codexEndMarker)

/-- Go `unicode.IsSpace`: the Unicode white-space code points. -/
def goIsSpace (c : Char) : Bool :=
  c.toNat ∈ [0x09, 0x0A, 0x0B, 0x0C, 0x0D, 0x20, 0x85, 0xA0,
    0x1680, 0x2000, 0x2001, 0x2002, 0x2003, 0x2004, 0x2005, 0x2006,
    0x2007, 0x2008, 0x2009, 0x200A, 0x2028, 0x2029, 0x202F, 0x205F, 0x3000]

/-- Model of Go `strings.TrimSpace`. -/
def trimSpace (s : Str) : Str :=
  ((s.dropWhile goIsSpace).reverse.dropWhile goIsSpace).reverse

/-- Model of `AgentsGenerator.mergeContent` (`writer.go`): locate the first
opening marker; if present, require a closing marker and replace the span
from the opening marker to the end of the first closing marker by the
freshly generated section; otherwise append the generated section to the
trimmed existing content, separated by a blank line. -/
def mergeContent (codexContent existing : Str) : Except String Str :=
  match strIndex existing codexStartMarker with
  | some startIdx =>
    match strIndex existing codexEndMarker with
    | none => .error "found codex start marker but no end marker"
    | some endIdx =>
      .ok (existing.take startIdx ++ generateDelimitedCodexSection codexContent ++
        existing.drop (endIdx + codexEndMarker.length))
  | none =>
    let result := trimSpace existing
    .ok ((if result = [] then result else result ++ ['\n', '\n']) ++
      generateDelimitedCodexSection codexContent)

/-- Specification-side condition: no closing marker occurs strictly before
the first opening marker (every well-formed document satisfies this). -/
def noEndBeforeStart (s : Str) : Bool :=
  match strIndex s codexEndMarker with
  | none => true
  | some e =>
    match strIndex s codexStartMarker with
    | none => false
    | some i => decide (i ≤ e)

/-- Whether an `Except` value is a success. -/
def exceptIsOk {ε α : Type} : Except ε α → Bool
  | .ok _ => true
  | .error _ => false

/-- The payload of a successful `Except`, or a default. -/
def okOr {ε α : Type} : Except ε α → α → α
  | .ok a, _ => a
  | .error _, d => d

/-- A filesystem fragment: an association list from path to content in
which the most recent write (at the head) shadows older entries. -/
abbrev FS := List (Str × Str)

/-- Path lookup in an association-list filesystem. -/
def lookupFS {α : Type} : List (Str × α) → Str → Option α
  | [], _ => none
  | (q, c) :: rest, p => if p = q then some c else lookupFS rest p

/-- Split a path at every slash (helper for `cleanPath`). -/
def splitSlash : Str → List Str
  | [] => [[]]
  | c :: rest =>
    let r := splitSlash rest
    if c = '/' then [] :: r
    else
      match r with
      | [] => [[c]]
      | h :: t => (c :: h) :: t

/-- Model of Go `filepath.IsAbs` on Unix: the path begins with a slash. -/
def isAbsPath (p : Str) : Bool := ['/'].isPrefixOf p

/-- Segment processing of Go `filepath.Clean`: drop empty and `.` segments,
resolve `..` against preceding segments (kept at the front of a relative
path, dropped at the root of an absolute one). -/
def cleanSegs (rooted : Bool) (segs : List Str) : List Str :=
  segs.foldl (fun acc seg =>
    if seg = [] ∨ seg = ['.'] then acc
    else if seg = ['.', '.'] then
      if acc ≠ [] ∧ acc.getLast? ≠ some ['.', '.'] then acc.dropLast
      else if rooted then acc
      else acc ++ [seg]
    else acc ++ [seg]) []

/-- Rejoin path segments with slashes. -/
def joinSegs : List Str → Str
  | [] => []
  | [s] => s
  | s :: rest => s ++ '/' :: joinSegs rest

/-- Model of Go `filepath.Clean` for Unix paths (the target platform of the
extraction code): shortest lexically equivalent path. -/
def cleanPath (p : Str) : Str :=
  if p = [] then ['.']
  else
    let rooted := isAbsPath p
    let body := joinSegs (cleanSegs rooted (splitSlash p))
    let res := if rooted = true then '/' :: body else body
    if res = [] then ['.'] else res

/-- Model of Go `filepath.Join` on two elements: join the non-empty
elements with a slash and clean the result. -/
def joinPath (a b : Str) : Str :=
  if a = [] ∧ b = [] then []
  else if a = [] then cleanPath b
  else if b = [] then cleanPath a
  else cleanPath (a ++ '/' :: b)

/-- A source directory tree: regular files carry content, directories
carry a named list of children (the result of listing them on disk). -/
inductive FNode where
  | file (content : Str)
  | dir (entries : List (Str × FNode))

/-- Whether a tree node is a directory. -/
def FNode.isDirB : FNode → Bool
  | .dir _ => true
  | .file _ => false

/-- Join a child name onto a relative path inside a tree. -/
def relJoin (n r : Str) : Str := if r = [] then n else n ++ '/' :: r

mutual

/-- The relative path and content of every regular file in a tree, in the
order `filepath.Walk` visits them. -/
def FNode.collect : FNode → List (Str × Str)
  | .file c => [([], c)]
  | .dir es => collectList es

/-- `FNode.collect` over a child list. -/
def collectList : List (Str × FNode) → List (Str × Str)
  | [] => []
  | (n, node) :: rest =>
    (FNode.collect node).map (fun rc => (relJoin n rc.1, rc.2)) ++ collectList rest

end

/-- Perform a list of file writes in order (later writes shadow earlier
ones in the association-list filesystem). -/
def writeList (fs : FS) (kvs : List (Str × Str)) : FS :=
  kvs.foldl (fun acc kv => kv :: acc) fs

/-- Perform, for each element of `l` in order, the writes `f` assigns it. -/
def applyWrites {α : Type} (f : α → List (Str × Str)) (l : List α) (fs : FS) : FS :=
  l.foldl (fun acc e => writeList acc (f e)) fs

/-- Model of `FilesystemService.MergeDirectories` (quickstart.md): walk the
source tree and copy every regular file to the joined destination path,
creating directories as needed (directory creation does not affect the
file map) and never deleting anything. -/
def mergeDirectories (src : List (Str × FNode)) (destDir : Str) (fs : FS) : FS :=
  writeList fs ((collectList src).map (fun rc => (joinPath destDir rc.1, rc.2)))

/-- ASCII lower-casing of one character (Go `strings.ToLower` on the ASCII
extensions the denylist contains). -/
def asciiLower (c : Char) : Char :=
  if 'A' ≤ c ∧ c ≤ 'Z' then Char.ofNat (c.toNat + 32) else c

/-- Lower-case a string character by character. -/
def toLowerStr (s : Str) : Str := s.map asciiLower

/-- Model of Go `filepath.Ext`: the suffix of the final path element
starting at its last dot, empty when the final element has no dot. -/
def goExt (p : Str) : Str :=
  let rev := p.reverse.takeWhile (fun c => ¬ (c = '/'))
  if rev.any (fun c => c = '.') then
    ((rev.takeWhile (fun c => ¬ (c = '.'))) ++ ['.']).reverse
  else []

/-- The binary-extension denylist of `TemplateService.shouldProcessAsTemplate`. -/
def binaryExtensions : List Str :=
  [".exe", ".dll", ".so", ".dylib",
   ".jpg", ".jpeg", ".png", ".gif", ".bmp", ".ico",
   ".mp3", ".mp4", ".avi", ".mov", ".wav",
   ".pdf", ".doc", ".docx", ".xls", ".xlsx", ".ppt", ".pptx",
   ".zip", ".tar", ".gz", ".7z", ".rar",
   ".bin", ".dat", ".db", ".sqlite"].map String.toList

/-- Model of `TemplateService.shouldProcessAsTemplate`: every file is a
template except those whose lower-cased extension is deny-listed. -/
def shouldProcessAsTemplate (filePath : Str) : Bool :=
  !(binaryExtensions.contains (toLowerStr (goExt filePath)))

/-- Model of `TemplateService.processTemplateDirectory`: walk the source
tree; template files are passed through the processor `proc`, deny-listed
binary files are copied byte for byte. -/
def processTemplateDirectory (proc : Str → Str) (sourceDir destDir : Str)
    (src : List (Str × FNode)) (fs : FS) : FS :=
  writeList fs ((collectList src).map (fun rc =>
    (joinPath destDir rc.1,
      if shouldProcessAsTemplate (joinPath sourceDir rc.1) then proc rc.2 else rc.2)))

/-- Model of `FilesystemService.DirectoryExists` applied to a child of a
listed directory: the entries contain a directory of that name. -/
def dirLookup : List (Str × FNode) → Str → Option (List (Str × FNode))
  | [], _ => none
  | (n, FNode.dir es) :: rest, name =>
    if n = name then some es else dirLookup rest name
  | (_, FNode.file _) :: rest, name => dirLookup rest name

/-- The directory name treated specially by placement. -/
def memoryName : Str := "memory".toList

/-- Unified-structure directory name recognised by the classifier. -/
def commandsName : Str := "commands".toList

/-- Unified-structure directory name recognised by the classifier. -/
def templatesName : Str := "templates".toList

/-- Unified-structure directory name recognised by the classifier. -/
def toolsName : Str := "tools".toList

/-- The writes of one loop iteration of the unified-directory phase of
`TemplateService.extractFromMixedStructure`: a non-hidden, non-memory
top-level directory is template-processed into the agent's hidden folder. -/
def mixedUnifiedEntryWrites (proc : Str → Str) (agent extractedPath target : Str)
    (e : Str × FNode) : List (Str × Str) :=
  match e with
  | (n, .dir es) =>
    if (['.'].isPrefixOf n) = false ∧ n ≠ memoryName then
      (collectList es).map (fun rc =>
        (joinPath (joinPath (joinPath target ('.' :: agent)) n) rc.1,
          if shouldProcessAsTemplate (joinPath (joinPath extractedPath n) rc.1)
          then proc rc.2 else rc.2))
    else []
  | (_, .file _) => []

/-- The writes of one loop iteration of the final copy-through phase of
`TemplateService.extractFromMixedStructure`: every entry that is not a
directory, or whose name is none of the agent's hidden folder, "memory",
"commands", "templates" and "tools", is copied to the target root. -/
def catchAllEntryWrites (agent target : Str) (e : Str × FNode) : List (Str × Str) :=
  if e.2.isDirB = false ∨ (e.1 ≠ '.' :: agent ∧ e.1 ≠ memoryName ∧
      e.1 ≠ commandsName ∧ e.1 ≠ templatesName ∧ e.1 ≠ toolsName) then
    match e with
    | (n, .dir es) =>
      (collectList es).map (fun rc => (joinPath (joinPath target n) rc.1, rc.2))
    | (n, .file c) => [(joinPath target n, c)]
  else []

/-- Model of `TemplateService.extractFromMixedStructure`: process the
requested agent's hidden folder, then (when unified directories are
present) the non-hidden non-memory directories into the agent folder, then
copy "memory" to the target root, and finally copy every remaining entry
through to the target root. -/
def extractFromMixedStructure (proc : Str → Str) (agent extractedPath target : Str)
    (entries : List (Str × FNode)) (hasUnified : Bool) (fs : FS) : FS :=
  let agentHiddenFolder := '.' :: agent
  let fs1 := match dirLookup entries agentHiddenFolder with
    | some es => processTemplateDirectory proc (joinPath extractedPath agentHiddenFolder)
        (joinPath target agentHiddenFolder) es fs
    | none => fs
  let fs2 := if hasUnified then
      applyWrites (mixedUnifiedEntryWrites proc agent extractedPath target) entries fs1
    else fs1
  let fs3 := match dirLookup entries memoryName with
    | some es => mergeDirectories es (joinPath target memoryName) fs2
    | none => fs2
  applyWrites (catchAllEntryWrites agent target) entries fs3

/-- The writes of one loop iteration of `extractFromUnifiedStructure`:
every top-level directory other than "memory" is merged beneath the
agent's hidden folder; file entries produce no write. -/
def unifiedEntryWrites (agent target : Str) (e : Str × FNode) : List (Str × Str) :=
  match e with
  | (n, .dir es) =>
    if n ≠ memoryName then
      (collectList es).map (fun rc =>
        (joinPath (joinPath (joinPath target ('.' :: agent)) n) rc.1, rc.2))
    else []
  | (_, .file _) => []

/-- Model of `TemplateService.extractFromUnifiedStructure`: merge every
non-memory top-level directory into the agent's hidden folder, then merge
"memory", when present, into the target root. -/
def extractFromUnifiedStructure (agent unifiedPath target : Str)
    (entries : List (Str × FNode)) (fs : FS) : FS :=
  let fs1 := applyWrites (unifiedEntryWrites agent target) entries fs
  match dirLookup entries memoryName with
  | some es => mergeDirectories es (joinPath target memoryName) fs1
  | none => fs1

/-- An archive entry of the ZIP extractor. -/
structure ZipEntry where
  name : Str
  isDir : Bool
  content : Str

/-- The failure cases of ZIP extraction path checking. -/
inductive ZipErr where
  | containsDotDot (name : Str)
  | absolutePath (name : Str)
  | traversal (name : Str)

/-- Model of `FilesystemService.validateZIPFilePath`: reject any name that
contains `..` anywhere, and any absolute name. -/
def validateZIPFilePath (p : Str) : Except ZipErr Unit :=
  if (strIndex p ['.', '.']).isSome then .error (.containsDotDot p)
  else if isAbsPath p then .error (.absolutePath p)
  else .ok ()

/-- Model of `FilesystemService.extractZIPFile`: validate the entry name,
re-check that the joined destination stays under the destination
directory, then create the directory (no effect on the file map) or write
the file. -/
def extractZIPFile (destDir : Str) (fs : FS) (e : ZipEntry) : Except ZipErr FS :=
  match validateZIPFilePath e.name with
  | .error er => .error er
  | .ok _ =>
    let path := joinPath destDir e.name
    if ((cleanPath destDir ++ ['/']).isPrefixOf path) = false ∧ path ≠ cleanPath destDir then
      .error (.traversal e.name)
    else if e.isDir then .ok fs
    else .ok ((path, e.content) :: fs)

/-- Model of `FilesystemService.ExtractZIP`: extract the entries in archive
order, stopping at the first failure; files written before the failure
stay written. -/
def extractZIP (destDir : Str) (fs : FS) : List ZipEntry → FS × Option ZipErr
  | [] => (fs, none)
  | e :: rest =>
    match extractZIPFile destDir fs e with
    | .error er => (fs, some er)
    | .ok fs2 => extractZIP destDir fs2 rest

/-- A directory-listing entry as `isCacheEmpty` sees it. -/
structure DirEntry where
  name : Str
  isDir : Bool

/-- The cache manifest file name. -/
def manifestName : Str := ".manifest.json".toList

/-- Model of `TemplateService.isCacheEmpty`: a missing cache root is empty,
a cache root without a manifest file is empty, and otherwise the cache is
empty exactly when it contains no top-level regular file other than the
manifest. -/
def isCacheEmpty (root : Option (List DirEntry)) : Bool :=
  match root with
  | none => true
  | some entries =>
    if (entries.any (fun e => !e.isDir && e.name == manifestName)) = false then true
    else (entries.countP (fun e => !e.isDir && !(e.name == manifestName))) == 0

/-- Specification-side predicate: the listing contains the manifest as a
regular file. -/
def manifestFilePresent (entries : List DirEntry) : Prop :=
  ∃ e ∈ entries, e.isDir = false ∧ e.name = manifestName

/-- Specification-side predicate: every top-level regular file is the
manifest itself. -/
def noNonManifestFiles (entries : List DirEntry) : Prop :=
  ∀ e ∈ entries, e.isDir = false → e.name = manifestName

/-- Two to the thirty-second power, the modulus of 32-bit words. -/
def M32 : Nat := 4294967296

/-- Right rotation of a 32-bit word. -/
def rotr32 (n x : Nat) : Nat := ((x >>> n) ||| (x <<< (32 - n))) % M32

/-- The first sixty-four primes, sources of the SHA-256 constants. -/
def primes64 : List Nat :=
  [2, 3, 5, 7, 11, 13, 17, 19, 23, 29, 31, 37, 41, 43, 47, 53,
   59, 61, 67, 71, 73, 79, 83, 89, 97, 101, 103, 107, 109, 113, 127, 131,
   137, 139, 149, 151, 157, 163, 167, 173, 179, 181, 191, 193, 197, 199, 211, 223,
   227, 229, 233, 239, 241, 251, 257, 263, 269, 271, 277, 281, 283, 293, 307, 311]

/-- Integer cube root by binary search over the bits. -/
def cbrtFloor (n : Nat) : Nat :=
  (List.range 64).foldl (fun acc i =>
    let cand := acc + (1 <<< (63 - i))
    if cand * cand * cand ≤ n then cand else acc) 0

/-- Integer square root by binary search over the bits. -/
def sqrtFloor (n : Nat) : Nat :=
  (List.range 64).foldl (fun acc i =>
    let cand := acc + (1 <<< (63 - i))
    if cand * cand ≤ n then cand else acc) 0

/-- The SHA-256 round constants: fractional cube-root bits of the primes. -/
def sha256K : List Nat := primes64.map (fun p => cbrtFloor (p * 2 ^ 96) % M32)

/-- The SHA-256 initial hash state: fractional square-root bits of the
first eight primes. -/
def sha256H0 : List Nat := (primes64.take 8).map (fun p => sqrtFloor (p * 2 ^ 64) % M32)

/-- Big-endian byte serialisation of a value into a fixed width. -/
def toBytesBE (numBytes val : Nat) : List Nat :=
  (List.range numBytes).map (fun i => (val >>> (8 * (numBytes - 1 - i))) % 256)

/-- SHA-256 message padding. -/
def sha256pad (msg : List Nat) : List Nat :=
  msg ++ 128 :: (List.replicate ((55 + 64 - msg.length % 64) % 64) 0 ++
    toBytesBE 8 (8 * msg.length))

/-- Cut a byte list into 64-byte blocks (the fuel bounds the number of
blocks; one element is consumed per block, so the length suffices). -/
def toBlocksAux : Nat → List Nat → List (List Nat)
  | 0, _ => []
  | _, [] => []
  | fuel + 1, a :: t => (a :: t).take 64 :: toBlocksAux fuel ((a :: t).drop 64)

/-- Cut a byte list into 64-byte blocks. -/
def toBlocks (l : List Nat) : List (List Nat) := toBlocksAux (l.length + 1) l

/-- The sixteen big-endian 32-bit words of one block. -/
def wordsBE (block : List Nat) : List Nat :=
  (List.range 16).map (fun i =>
    block.getD (4 * i) 0 * 16777216 + block.getD (4 * i + 1) 0 * 65536 +
    block.getD (4 * i + 2) 0 * 256 + block.getD (4 * i + 3) 0)

/-- SHA-256 message-schedule sigma functions. -/
def smallSigma0 (x : Nat) : Nat := rotr32 7 x ^^^ rotr32 18 x ^^^ (x >>> 3)

/-- SHA-256 message-schedule sigma functions. -/
def smallSigma1 (x : Nat) : Nat := rotr32 17 x ^^^ rotr32 19 x ^^^ (x >>> 10)

/-- SHA-256 compression sigma functions. -/
def bigSigma0 (x : Nat) : Nat := rotr32 2 x ^^^ rotr32 13 x ^^^ rotr32 22 x

/-- SHA-256 compression sigma functions. -/
def bigSigma1 (x : Nat) : Nat := rotr32 6 x ^^^ rotr32 11 x ^^^ rotr32 25 x

/-- Extend sixteen schedule words to sixty-four. -/
def msgSchedule (w16 : List Nat) : List Nat :=
  (List.range 48).foldl (fun w _ =>
    let i := w.length
    w ++ [(w.getD (i - 16) 0 + smallSigma0 (w.getD (i - 15) 0) +
      w.getD (i - 7) 0 + smallSigma1 (w.getD (i - 2) 0)) % M32]) w16

/-- One SHA-256 compression round over a block. -/
def compressBlock (h : List Nat) (block : List Nat) : List Nat :=
  let w := msgSchedule (wordsBE block)
  let st := (List.range 64).foldl (fun st i =>
    let a := st.getD 0 0
    let b := st.getD 1 0
    let c := st.getD 2 0
    let d := st.getD 3 0
    let e := st.getD 4 0
    let f := st.getD 5 0
    let g := st.getD 6 0
    let hh := st.getD 7 0
    let ch := (e &&& f) ^^^ ((e ^^^ 4294967295) &&& g)
    let temp1 := (hh + bigSigma1 e + ch + sha256K.getD i 0 + w.getD i 0) % M32
    let maj := (a &&& b) ^^^ (a &&& c) ^^^ (b &&& c)
    let temp2 := (bigSigma0 a + maj) % M32
    [(temp1 + temp2) % M32, a, b, c, (d + temp1) % M32, e, f, g]) h
  (List.range 8).map (fun i => (h.getD i 0 + st.getD i 0) % M32)

/-- SHA-256 of a byte list, as thirty-two bytes. -/
def sha256Bytes (msg : List Nat) : List Nat :=
  ((toBlocks (sha256pad msg)).foldl compressBlock sha256H0).flatMap (toBytesBE 4)

/-- One lower-case hexadecimal digit. -/
def hexDigit (n : Nat) : Char :=
  if n < 10 then Char.ofNat (48 + n) else Char.ofNat (87 + n)

/-- Lower-case hexadecimal rendering of bytes, as Go `fmt.Sprintf("%x")`
renders a SHA-256 sum in `TemplateService.CalculateFileHash`. -/
def bytesToHex (bs : List Nat) : Str :=
  bs.flatMap (fun b => [hexDigit (b / 16), hexDigit (b % 16)])

/-- The failure cases of cache validation. -/
inductive CacheErr where
  | missingFile (rel : Str)
  | hashMismatch (rel expected actual : Str)

/-- Model of `TemplateService.ValidateCache`: for every manifest entry in
order, require the cached file to exist and its freshly computed digest to
equal the recorded digest exactly; report the offending path with the
expected and actual digests otherwise. -/
def validateCache (files : List (Str × List Nat)) (cacheRoot : Str) :
    List (Str × Str) → Except CacheErr Unit
  | [] => .ok ()
  | (rel, expected) :: rest =>
    match lookupFS files (joinPath cacheRoot rel) with
    | none => .error (.missingFile rel)
    | some content =>
      let actual := bytesToHex (sha256Bytes content)
      if actual ≠ expected then .error (.hashMismatch rel expected actual)
      else validateCache files cacheRoot rest

end SpecKit

namespace SpecKit

theorem isPrefixOf_eq_take {pat s : Str} :
    pat.isPrefixOf s = true ↔ s.take pat.length = pat := by
  induction pat generalizing s with
  | nil => simp [List.isPrefixOf]
  | cons a as ih =>
    cases s with
    | nil => simp [List.isPrefixOf]
    | cons b bs =>
      simp only [List.isPrefixOf, List.length_cons, List.take_succ_cons,
        Bool.and_eq_true, beq_iff_eq, List.cons.injEq, ih]
      constructor
      · rintro ⟨h1, h2⟩; exact ⟨h1.symm, h2⟩
      · rintro ⟨h1, h2⟩; exact ⟨h1.symm, h2⟩

theorem occursAt_length {pat s : Str} {j : Nat} (hp : pat ≠ [])
    (h : occursAt pat s j) : j + pat.length ≤ s.length := by
  unfold occursAt at h
  have hlen : min pat.length (s.drop j).length = pat.length := by
    have := congrArg List.length h
    rwa [List.length_take] at this
  have hpos : 0 < pat.length := List.length_pos.mpr hp
  have hd : (s.drop j).length = s.length - j := List.length_drop j s
  omega

theorem occursAt_congr_take {pat x y : Str} {n j : Nat}
    (h : x.take n = y.take n) (hj : j + pat.length ≤ n) :
    occursAt pat x j ↔ occursAt pat y j := by
  unfold occursAt
  have key : ∀ z : Str, (z.drop j).take pat.length = ((z.take n).drop j).take pat.length := by
    intro z
    rw [List.drop_take]
    rw [List.take_take]
    congr 1
    omega
  rw [key x, key y, h]

theorem occursAt_append_left {pat x y : Str} {j : Nat}
    (h : occursAt pat x j) : occursAt pat (x ++ y) j := by
  unfold occursAt at h ⊢
  by_cases hj : j ≤ x.length
  · rw [List.drop_append_of_le_length hj, List.take_append_eq_append_take, h]
    have hlen : min pat.length (x.drop j).length = pat.length := by
      have := congrArg List.length h
      rwa [List.length_take] at this
    have hz : pat.length - (x.drop j).length = 0 := by omega
    rw [hz]
    simp
  · have hx : x.drop j = [] := List.drop_eq_nil_of_le (by omega)
    rw [hx] at h
    simp at h
    subst h
    simp

theorem occursAt_shift {pat x y : Str} {j : Nat} :
    occursAt pat (x ++ y) (x.length + j) ↔ occursAt pat y j := by
  unfold occursAt
  rw [List.drop_append_eq_append_drop]
  have h1 : x.drop (x.length + j) = [] := List.drop_eq_nil_of_le (by omega)
  have h2 : x.length + j - x.length = j := by omega
  rw [h1, h2, List.nil_append]

theorem occursAt_fit {pat x y : Str} {j : Nat} (h : j + pat.length ≤ x.length) :
    occursAt pat (x ++ y) j ↔ occursAt pat x j := by
  have htake : (x ++ y).take x.length = x.take x.length := by
    rw [List.take_append_eq_append_take]
    simp
  exact occursAt_congr_take htake h

theorem occursAt_barrier {pat x y : Str} {c : Char} {j : Nat}
    (hc : c ∉ pat) (hj : j ≤ x.length)
    (h : occursAt pat (x ++ c :: y) j) : occursAt pat x j := by
  unfold occursAt at h ⊢
  rw [List.drop_append_of_le_length hj] at h
  by_cases hfit : pat.length ≤ (x.drop j).length
  · rw [List.take_append_eq_append_take] at h
    have hz : pat.length - (x.drop j).length = 0 := by omega
    rw [hz] at h
    simpa using h
  · exfalso
    rw [List.take_append_eq_append_take] at h
    obtain ⟨m, hm⟩ : ∃ m, pat.length - (x.drop j).length = m + 1 :=
      ⟨pat.length - (x.drop j).length - 1, by omega⟩
    rw [hm, List.take_succ_cons] at h
    apply hc
    rw [← h]
    exact List.mem_append_right _ (List.mem_cons_self _ _)

theorem strIndex_some_occursAt {s pat : Str} {i : Nat}
    (h : strIndex s pat = some i) : occursAt pat s i := by
  induction s generalizing i with
  | nil =>
    unfold strIndex at h
    by_cases hp : pat.isPrefixOf ([] : Str)
    · simp [hp] at h
      subst h
      exact isPrefixOf_eq_take.mp hp
    · simp [hp] at h
  | cons c t ih =>
    unfold strIndex at h
    by_cases hp : pat.isPrefixOf (c :: t)
    · simp [hp] at h
      subst h
      exact isPrefixOf_eq_take.mp hp
    · simp [hp] at h
      obtain ⟨i', hi', rfl⟩ := h
      have := ih hi'
      unfold occursAt at this ⊢
      simpa using this

theorem strIndex_some_min {s pat : Str} {i : Nat}
    (h : strIndex s pat = some i) : ∀ j < i, ¬ occursAt pat s j := by
  induction s generalizing i with
  | nil =>
    unfold strIndex at h
    by_cases hp : pat.isPrefixOf ([] : Str)
    · simp [hp] at h; omega
    · simp [hp] at h
  | cons c t ih =>
    unfold strIndex at h
    by_cases hp : pat.isPrefixOf (c :: t)
    · simp [hp] at h; omega
    · simp [hp] at h
      obtain ⟨i', hi', rfl⟩ := h
      intro j hj hocc
      cases j with
      | zero =>
        exact hp (isPrefixOf_eq_take.mpr (by simpa [occursAt] using hocc))
      | succ j' =>
        have : occursAt pat t j' := by
          unfold occursAt at hocc ⊢
          simpa using hocc
        exact ih hi' j' (by omega) this

theorem strIndex_eq_some_of {s pat : Str} {i : Nat}
    (hocc : occursAt pat s i) (hmin : ∀ j < i, ¬ occursAt pat s j) :
    strIndex s pat = some i := by
  induction s generalizing i with
  | nil =>
    have hp : pat = [] := by
      unfold occursAt at hocc
      simpa using hocc.symm
    have hi : i = 0 := by
      by_contra hne
      exact hmin 0 (by omega) (by simp [occursAt, hp])
    subst hi hp
    simp [strIndex, List.isPrefixOf]
  | cons c t ih =>
    unfold strIndex
    by_cases hp : pat.isPrefixOf (c :: t)
    · have hi : i = 0 := by
        by_contra hne
        exact hmin 0 (by omega) (by simpa [occursAt] using isPrefixOf_eq_take.mp hp)
      subst hi
      simp [hp]
    · have hi : i ≠ 0 := by
        intro h0
        subst h0
        exact hp (isPrefixOf_eq_take.mpr (by simpa [occursAt] using hocc))
      obtain ⟨i', rfl⟩ := Nat.exists_eq_succ_of_ne_zero hi
      have hocc' : occursAt pat t i' := by
        unfold occursAt at hocc ⊢
        simpa using hocc
      have hmin' : ∀ j < i', ¬ occursAt pat t j := by
        intro j hj hc2
        apply hmin (j + 1) (by omega)
        unfold occursAt at hc2 ⊢
        simpa using hc2
      simp [hp, ih hocc' hmin']

theorem strIndex_none_iff {s pat : Str} :
    strIndex s pat = none ↔ ∀ j, ¬ occursAt pat s j := by
  constructor
  · intro h j hocc
    induction s generalizing j with
    | nil =>
      unfold strIndex at h
      by_cases hp : pat.isPrefixOf ([] : Str)
      · simp [hp] at h
      · apply hp
        apply isPrefixOf_eq_take.mpr
        unfold occursAt at hocc
        simpa using hocc
    | cons c t ih =>
      unfold strIndex at h
      by_cases hp : pat.isPrefixOf (c :: t)
      · simp [hp] at h
      · simp [hp] at h
        cases j with
        | zero => exact hp (isPrefixOf_eq_take.mpr (by simpa [occursAt] using hocc))
        | succ j' =>
          apply ih h j'
          unfold occursAt at hocc ⊢
          simpa using hocc
  · intro h
    cases hs : strIndex s pat with
    | none => rfl
    | some i => exact absurd (strIndex_some_occursAt hs) (h i)

end SpecKit

namespace SpecKit

theorem take_append_small {x y : Str} {n : Nat} (h : n ≤ x.length) :
    (x ++ y).take n = x.take n := by
  rw [List.take_append_eq_append_take]
  have hz : n - x.length = 0 := by omega
  rw [hz]
  simp

theorem drop_append_big {x y : Str} {n : Nat} (h : x.length ≤ n) :
    (x ++ y).drop n = y.drop (n - x.length) := by
  rw [List.drop_append_eq_append_drop, List.drop_eq_nil_of_le h]
  simp

theorem take_add_occursAt {pat s : Str} {i : Nat} (h : occursAt pat s i) :
    s.take (i + pat.length) = s.take i ++ pat := by
  rw [List.take_add, h]

theorem trimSpace_decomp (s : Str) : ∃ u v, s = u ++ trimSpace s ++ v := by
  refine ⟨s.takeWhile goIsSpace,
    ((s.dropWhile goIsSpace).reverse.takeWhile goIsSpace).reverse, ?_⟩
  unfold trimSpace
  conv_lhs => rw [← List.takeWhile_append_dropWhile (p := goIsSpace) (l := s)]
  rw [List.append_assoc]
  congr 1
  rw [← List.reverse_append, List.takeWhile_append_dropWhile, List.reverse_reverse]

theorem newCodexSection_take (body : Str) :
    (generateDelimitedCodexSection body).take codexStartMarker.length = codexStartMarker := by
  unfold generateDelimitedCodexSection
  exact List.take_left _ _

theorem newCodexSection_length (body : Str) :
    (generateDelimitedCodexSection body).length =
      codexStartMarker.length + body.length + 2 + codexEndMarker.length := by
  unfold generateDelimitedCodexSection
  simp
  omega

/-- C1.  The claim as frozen quantifies over every existing document; it
fails when a closing marker precedes the first opening marker (see the
counterexample).  Amended form: whenever no closing marker occurs before
the first opening marker — in particular for every well-formed document —
re-merging the merge output with the same generated section returns it
unchanged. -/
theorem C1_theorem (body existing out : Str)
    (hbody : strIndex (generateDelimitedCodexSection body) codexEndMarker =
      some (codexStartMarker.length + body.length + 2))
    (horder : noEndBeforeStart existing = true)
    (hmerge : mergeContent body existing = .ok out) :
    mergeContent body out = .ok out := by
  have hSMne : codexStartMarker ≠ ([] : Str) := by decide
  have hEMne : codexEndMarker ≠ ([] : Str) := by decide
  have hSMnl : '\n' ∉ codexStartMarker := by decide
  have hEMnl : '\n' ∉ codexEndMarker := by decide
  have hEMleSM : codexEndMarker.length ≤ codexStartMarker.length := by decide
  set N := generateDelimitedCodexSection body with hN
  set sm := codexStartMarker.length with hsm
  set em := codexEndMarker.length with hem
  have hNlen : N.length = sm + body.length + 2 + em := newCodexSection_length body
  have hNtake : N.take sm = codexStartMarker := newCodexSection_take body
  have hNEocc : occursAt codexEndMarker N (sm + body.length + 2) :=
    strIndex_some_occursAt hbody
  have hNEmin : ∀ k < sm + body.length + 2, ¬ occursAt codexEndMarker N k :=
    strIndex_some_min hbody
  unfold mergeContent at hmerge
  cases hs : strIndex existing codexStartMarker with
  | some s =>
    rw [hs] at hmerge
    cases he : strIndex existing codexEndMarker with
    | none => rw [he] at hmerge; cases hmerge
    | some e =>
      rw [he] at hmerge
      simp only [Except.ok.injEq] at hmerge
      have hout : out = existing.take s ++ N ++ existing.drop (e + em) := hmerge.symm
      have hse : s ≤ e := by
        unfold noEndBeforeStart at horder
        rw [he, hs] at horder
        exact of_decide_eq_true horder
      set A := existing.take s with hA
      set B := existing.drop (e + em) with hB
      have hSocc : occursAt codexStartMarker existing s := strIndex_some_occursAt hs
      have hSmin := strIndex_some_min hs
      have hEmin := strIndex_some_min he
      have hsle : s + sm ≤ existing.length := occursAt_length hSMne hSocc
      have hAlen : A.length = s := by
        rw [hA, List.length_take]; omega
      have hex_take : existing.take (s + sm) = A ++ codexStartMarker :=
        take_add_occursAt hSocc
      have hout_take_s : out.take s = A := by
        rw [hout, take_append_small (by rw [List.length_append]; omega),
          take_append_small (by omega), hA, List.take_take]
        congr 1
        omega
      have hout_drop_s : out.drop s = N ++ B := by
        rw [hout, List.append_assoc, ← hAlen, List.drop_left]
      have hout_take : out.take (s + sm) = A ++ codexStartMarker := by
        rw [List.take_add, hout_take_s, hout_drop_s,
          take_append_small (by omega), hNtake]
      have hwin : ∀ pat : Str, ∀ j, j + pat.length ≤ s + sm →
          (occursAt pat out j ↔ occursAt pat existing j) := by
        intro pat j hj
        exact occursAt_congr_take (hout_take.trans hex_take.symm) hj
      have houtS : strIndex out codexStartMarker = some s := by
        apply strIndex_eq_some_of
        · unfold occursAt
          rw [hout_drop_s, ← hsm, take_append_small (by omega), hNtake]
        · intro j hj
          rw [hwin _ j (by omega)]
          exact hSmin j hj
      have houtE : strIndex out codexEndMarker = some (s + (sm + body.length + 2)) := by
        apply strIndex_eq_some_of
        · unfold occursAt
          have hd1 : out.drop (s + (sm + body.length + 2)) =
              N.drop (sm + body.length + 2) ++ B := by
            rw [← List.drop_drop, hout_drop_s,
              List.drop_append_of_le_length (by omega)]
          rw [hd1, ← hem, take_append_small ?hfit]
          · exact hNEocc
          · rw [List.length_drop]
            omega
        · intro j hj
          by_cases hjs : j < s
          · rw [hwin _ j (by omega)]
            intro hocc
            exact hEmin j (by omega) hocc
          · obtain ⟨k, rfl⟩ : ∃ k, j = s + k := ⟨j - s, by omega⟩
            have hk : k < sm + body.length + 2 := by omega
            intro hocc
            have h1 : occursAt codexEndMarker (N ++ B) k := by
              have hsh : out = A ++ (N ++ B) := by
                rw [hout, List.append_assoc]
              rw [hsh, ← hAlen] at hocc
              exact occursAt_shift.mp hocc
            have h2 : occursAt codexEndMarker N k := by
              rw [occursAt_fit (by omega)] at h1
              exact h1
            exact hNEmin k hk h2
      have t2 : out.drop (s + (sm + List.length body + 2) + codexEndMarker.length) = B := by
        rw [hout, show s + (sm + List.length body + 2) + codexEndMarker.length =
          (A ++ N).length from by rw [List.length_append]; omega]
        exact List.drop_left _ _
      have hcomp : mergeContent body out =
          .ok (out.take s ++ generateDelimitedCodexSection body ++
            out.drop (s + (sm + List.length body + 2) + codexEndMarker.length)) := by
        unfold mergeContent
        rw [houtS, houtE]
      rw [hcomp, hout_take_s, t2, hout]
  | none =>
    rw [hs] at hmerge
    simp only [Except.ok.injEq] at hmerge
    have hEnone : strIndex existing codexEndMarker = none := by
      unfold noEndBeforeStart at horder
      cases he : strIndex existing codexEndMarker with
      | none => rfl
      | some e => rw [he, hs] at horder; cases horder
    have hnoS : ∀ j, ¬ occursAt codexStartMarker existing j := strIndex_none_iff.mp hs
    have hnoE : ∀ j, ¬ occursAt codexEndMarker existing j := strIndex_none_iff.mp hEnone
    obtain ⟨u, v, huv⟩ := trimSpace_decomp existing
    set T := trimSpace existing with hT
    have hnoST : ∀ j, ¬ occursAt codexStartMarker T j := by
      intro j hocc
      apply hnoS (u.length + j)
      rw [huv, List.append_assoc]
      exact occursAt_shift.mpr (occursAt_append_left hocc)
    have hnoET : ∀ j, ¬ occursAt codexEndMarker T j := by
      intro j hocc
      apply hnoE (u.length + j)
      rw [huv, List.append_assoc]
      exact occursAt_shift.mpr (occursAt_append_left hocc)
    set P := (if T = [] then T else T ++ ['\n', '\n']) with hP
    have hout : out = P ++ N := hmerge.symm
    have hPmin : ∀ pat : Str, pat ≠ [] → '\n' ∉ pat →
        (∀ j, ¬ occursAt pat T j) → ∀ j < P.length, ¬ occursAt pat out j := by
      intro pat hpne hpnl hpT j hj hocc
      by_cases hTnil : T = []
      · rw [hP, if_pos hTnil, hTnil] at hj
        simp at hj
      · rw [hP, if_neg hTnil] at hj
        have hshape : out = (T ++ ['\n']) ++ '\n' :: N := by
          rw [hout, hP, if_neg hTnil]
          simp
        rw [hshape] at hocc
        have hj1 : j ≤ (T ++ ['\n']).length := by
          simp only [List.length_append, List.length_cons, List.length_nil] at hj ⊢
          omega
        have hocc1 : occursAt pat (T ++ ['\n']) j := occursAt_barrier hpnl hj1 hocc
        have hlen1 := occursAt_length hpne hocc1
        have hj2 : j ≤ T.length := by
          rw [List.length_append] at hlen1
          have : 0 < pat.length := List.length_pos.mpr hpne
          simp at hlen1
          omega
        have hocc2 : occursAt pat T j := occursAt_barrier hpnl hj2 hocc1
        exact hpT j hocc2
    have houtS : strIndex out codexStartMarker = some P.length := by
      apply strIndex_eq_some_of
      · unfold occursAt
        rw [hout, List.drop_left, ← hsm, hNtake]
      · exact hPmin codexStartMarker hSMne hSMnl hnoST
    have houtE : strIndex out codexEndMarker = some (P.length + (sm + body.length + 2)) := by
      apply strIndex_eq_some_of
      · unfold occursAt
        have hd1 : out.drop (P.length + (sm + body.length + 2)) =
            N.drop (sm + body.length + 2) := by
          rw [hout, ← List.drop_drop, List.drop_left]
        rw [hd1, ← hem]
        have hfit : codexEndMarker.length ≤ (N.drop (sm + body.length + 2)).length := by
          rw [List.length_drop]
          omega
        exact hNEocc
      · intro j hj
        by_cases hjP : j < P.length
        · exact hPmin codexEndMarker hEMne hEMnl hnoET j hjP
        · obtain ⟨k, rfl⟩ : ∃ k, j = P.length + k := ⟨j - P.length, by omega⟩
          have hk : k < sm + body.length + 2 := by omega
          intro hocc
          rw [hout] at hocc
          exact hNEmin k hk (occursAt_shift.mp hocc)
    have t1 : out.take P.length = P := by
      rw [hout, List.take_left]
    have t2 : out.drop (P.length + (sm + List.length body + 2) + codexEndMarker.length) = [] := by
      rw [hout]
      apply List.drop_eq_nil_of_le
      rw [List.length_append]
      omega
    have hcomp : mergeContent body out =
        .ok (out.take P.length ++ generateDelimitedCodexSection body ++
          out.drop (P.length + (sm + List.length body + 2) + codexEndMarker.length)) := by
      unfold mergeContent
      rw [houtS, houtE]
    rw [hcomp, t1, t2, hout]
    simp

/-- Witness for C1: the amended idempotence theorem applied to the document
"hello" and the one-character generated body "B". -/
theorem C1_witness :
    mergeContent ['B'] "hello".toList =
      .ok ("hello".toList ++ ['\n', '\n'] ++ generateDelimitedCodexSection ['B']) ∧
    mergeContent ['B'] ("hello".toList ++ ['\n', '\n'] ++ generateDelimitedCodexSection ['B']) =
      .ok ("hello".toList ++ ['\n', '\n'] ++ generateDelimitedCodexSection ['B']) :=
  ⟨by rfl,
    C1_theorem ['B'] "hello".toList
      ("hello".toList ++ ['\n', '\n'] ++ generateDelimitedCodexSection ['B'])
      (by rfl) (by rfl) (by rfl)⟩

/-- Counterexample for C1 as frozen: for the document that consists of a
closing marker followed by an opening marker, the merge succeeds, but
feeding its output back into the merge does not reproduce it — the second
merge duplicates the generated section, so `merge (merge doc) ≠ merge doc`. -/
theorem C1_counterexample :
    mergeContent ['B'] (codexEndMarker ++ codexStartMarker) =
      .ok (codexEndMarker ++ generateDelimitedCodexSection ['B'] ++ codexStartMarker) ∧
    mergeContent ['B']
        (codexEndMarker ++ generateDelimitedCodexSection ['B'] ++ codexStartMarker) =
      .ok (codexEndMarker ++ generateDelimitedCodexSection ['B'] ++
        (generateDelimitedCodexSection ['B'] ++ codexStartMarker)) ∧
    codexEndMarker ++ generateDelimitedCodexSection ['B'] ++
        (generateDelimitedCodexSection ['B'] ++ codexStartMarker) ≠
      codexEndMarker ++ generateDelimitedCodexSection ['B'] ++ codexStartMarker :=
  ⟨by rfl, by rfl, by decide⟩

/-- C2, amended: `mergeContent` rejects a document exactly when the document
contains an opening marker but no closing marker.  Duplicate or reversed
markers are not detected: the code replaces from the first opening marker
through the first closing marker without counting occurrences. -/
theorem C2_theorem (codexContent existing : Str) :
    exceptIsOk (mergeContent codexContent existing) = false ↔
      (strIndex existing codexStartMarker).isSome = true ∧
        strIndex existing codexEndMarker = none := by
  unfold mergeContent
  cases hs : strIndex existing codexStartMarker <;>
    cases he : strIndex existing codexEndMarker <;>
      simp [exceptIsOk]

/-- Counterexample for C2 as frozen: a document with two opening markers
(at positions 0 and 54) and two closing markers (at positions 28 and 82)
is merged without any error, not rejected as malformed. -/
theorem C2_counterexample :
    occursAt codexStartMarker
      (codexStartMarker ++ codexEndMarker ++ codexStartMarker ++ codexEndMarker) 0 ∧
    occursAt codexStartMarker
      (codexStartMarker ++ codexEndMarker ++ codexStartMarker ++ codexEndMarker) 54 ∧
    occursAt codexEndMarker
      (codexStartMarker ++ codexEndMarker ++ codexStartMarker ++ codexEndMarker) 28 ∧
    occursAt codexEndMarker
      (codexStartMarker ++ codexEndMarker ++ codexStartMarker ++ codexEndMarker) 82 ∧
    exceptIsOk (mergeContent ['B']
      (codexStartMarker ++ codexEndMarker ++ codexStartMarker ++ codexEndMarker)) = true := by
  decide

/-- C3: for a document with exactly one occurrence of each marker, the
opening one before the closing one, the merge replaces exactly the span
from the opening marker through the closing marker (inclusive) by the
freshly generated section; every character before the opening marker and
after the closing marker is returned unchanged. -/
theorem C3_theorem (codexContent existing : Str) (i e : Nat)
    (hS : occursAt codexStartMarker existing i)
    (hSu : ∀ j < existing.length, occursAt codexStartMarker existing j → j = i)
    (hE : occursAt codexEndMarker existing e)
    (hEu : ∀ j < existing.length, occursAt codexEndMarker existing j → j = e)
    (hord : i + codexStartMarker.length ≤ e) :
    mergeContent codexContent existing =
      .ok (existing.take i ++ generateDelimitedCodexSection codexContent ++
        existing.drop (e + codexEndMarker.length)) := by
  have hSne : codexStartMarker ≠ ([] : Str) := by decide
  have hEne : codexEndMarker ≠ ([] : Str) := by decide
  have hposS : 0 < codexStartMarker.length := by decide
  have hposE : 0 < codexEndMarker.length := by decide
  have hiS : strIndex existing codexStartMarker = some i := by
    apply strIndex_eq_some_of hS
    intro j hj hocc
    have hlen := occursAt_length hSne hocc
    have := hSu j (by omega) hocc
    omega
  have hiE : strIndex existing codexEndMarker = some e := by
    apply strIndex_eq_some_of hE
    intro j hj hocc
    have hlen := occursAt_length hEne hocc
    have := hEu j (by omega) hocc
    omega
  unfold mergeContent
  rw [hiS, hiE]

/-- Witness for C3: a document with one delimited region surrounded by one
character on each side. -/
theorem C3_witness :
    mergeContent ['B'] ('A' :: codexStartMarker ++ 'm' :: codexEndMarker ++ ['Z']) =
      .ok (('A' :: codexStartMarker ++ 'm' :: codexEndMarker ++ ['Z']).take 1 ++
        generateDelimitedCodexSection ['B'] ++
        ('A' :: codexStartMarker ++ 'm' :: codexEndMarker ++ ['Z']).drop
          (30 + codexEndMarker.length)) :=
  C3_theorem ['B'] ('A' :: codexStartMarker ++ 'm' :: codexEndMarker ++ ['Z']) 1 30
    (by decide) (by decide) (by decide) (by decide) (by decide)

/-- C4, amended: when the document contains no opening marker, the merge
returns the whitespace-trimmed existing content — an infix of the original,
not the original itself — followed by a blank line and the generated
section (the section alone when the document is all whitespace). -/
theorem C4_theorem (codexContent existing : Str)
    (h : strIndex existing codexStartMarker = none) :
    mergeContent codexContent existing =
      .ok ((if trimSpace existing = [] then trimSpace existing
          else trimSpace existing ++ ['\n', '\n']) ++
        generateDelimitedCodexSection codexContent) ∧
    ∃ u v, existing = u ++ trimSpace existing ++ v := by
  constructor
  · unfold mergeContent
    rw [h]
  · exact trimSpace_decomp existing

/-- Witness for C4: the document " x" (leading space, no markers). -/
theorem C4_witness :
    mergeContent ['B'] [' ', 'x'] =
      .ok ((if trimSpace [' ', 'x'] = [] then trimSpace [' ', 'x']
          else trimSpace [' ', 'x'] ++ ['\n', '\n']) ++
        generateDelimitedCodexSection ['B']) ∧
    ∃ u v, [' ', 'x'] = u ++ trimSpace [' ', 'x'] ++ v :=
  C4_theorem ['B'] [' ', 'x'] (by decide)

/-- Counterexample for C4 as frozen: the marker-free non-empty document
" x" is not preserved byte-for-byte — the merge output does not even begin
with it, because `strings.TrimSpace` removes its leading space. -/
theorem C4_counterexample :
    strIndex [' ', 'x'] codexStartMarker = none ∧
    exceptIsOk (mergeContent ['B'] [' ', 'x']) = true ∧
    (okOr (mergeContent ['B'] [' ', 'x']) []).take 2 ≠ [' ', 'x'] := by
  decide

theorem lookupFS_cons {α : Type} (q : Str) (c : α) (fs : List (Str × α)) (p : Str) :
    lookupFS ((q, c) :: fs) p = if p = q then some c else lookupFS fs p := rfl

theorem lookupFS_writeList_avoid {fs : FS} {kvs : List (Str × Str)} {p : Str}
    (h : ∀ kv ∈ kvs, kv.1 ≠ p) : lookupFS (writeList fs kvs) p = lookupFS fs p := by
  induction kvs generalizing fs with
  | nil => rfl
  | cons kv rest ih =>
    obtain ⟨q, c⟩ := kv
    have hstep : writeList fs ((q, c) :: rest) = writeList ((q, c) :: fs) rest := rfl
    rw [hstep, ih (fun kv2 hm => h kv2 (List.mem_cons_of_mem _ hm)), lookupFS_cons,
      if_neg (fun hpq => h (q, c) (List.mem_cons_self _ _) hpq.symm)]

theorem lookupFS_writeList_mem {fs : FS} {kvs : List (Str × Str)} {k : Str} {v : Str}
    (hmem : (k, v) ∈ kvs) (hnd : (kvs.map Prod.fst).Nodup) :
    lookupFS (writeList fs kvs) k = some v := by
  induction kvs generalizing fs with
  | nil => cases hmem
  | cons kv rest ih =>
    have hstep : writeList fs (kv :: rest) = writeList (kv :: fs) rest := rfl
    rw [List.map_cons, List.nodup_cons] at hnd
    cases List.mem_cons.mp hmem with
    | inl heq =>
      rw [hstep, lookupFS_writeList_avoid ?havoid]
      · rw [← heq, lookupFS_cons, if_pos rfl]
      · intro kv2 hm2 hk2
        have hin : kv2.1 ∈ rest.map Prod.fst := List.mem_map_of_mem Prod.fst hm2
        rw [hk2] at hin
        have hkk : kv.1 = k := by rw [← heq]
        rw [← hkk] at hin
        exact hnd.1 hin
    | inr hmem2 =>
      rw [hstep]
      exact ih hmem2 hnd.2

theorem lookupFS_applyWrites_avoid {α : Type} {f : α → List (Str × Str)}
    {l : List α} {fs : FS} {p : Str}
    (h : ∀ e ∈ l, ∀ kv ∈ f e, kv.1 ≠ p) :
    lookupFS (applyWrites f l fs) p = lookupFS fs p := by
  induction l generalizing fs with
  | nil => rfl
  | cons e rest ih =>
    have hstep : applyWrites f (e :: rest) fs = applyWrites f rest (writeList fs (f e)) := rfl
    rw [hstep, ih (fun e2 hm => h e2 (List.mem_cons_of_mem _ hm)),
      lookupFS_writeList_avoid (h e (List.mem_cons_self _ _))]

theorem lookupFS_applyWrites_at {α : Type} {f : α → List (Str × Str)}
    {pre post : List α} {x : α} {fs : FS} {k : Str} {v : Str}
    (hmem : (k, v) ∈ f x) (hnd : ((f x).map Prod.fst).Nodup)
    (hpost : ∀ e ∈ post, ∀ kv ∈ f e, kv.1 ≠ k) :
    lookupFS (applyWrites f (pre ++ x :: post) fs) k = some v := by
  have hsplit : applyWrites f (pre ++ x :: post) fs =
      applyWrites f post (writeList (applyWrites f pre fs) (f x)) := by
    unfold applyWrites
    rw [List.foldl_append]
    rfl
  rw [hsplit, lookupFS_applyWrites_avoid hpost]
  exact lookupFS_writeList_mem hmem hnd

/-- C6: a directory merge never deletes: every destination file whose path
is not a joined source path keeps its exact content; every source file
overwrites the joined destination path with the source bytes; every file
present before the merge is still present after it. -/
theorem C6_theorem (src : List (Str × FNode)) (destDir : Str) (fs : FS)
    (hnd : ((collectList src).map (fun rc => joinPath destDir rc.1)).Nodup) :
    (∀ p, (∀ rc ∈ collectList src, joinPath destDir rc.1 ≠ p) →
      lookupFS (mergeDirectories src destDir fs) p = lookupFS fs p) ∧
    (∀ rc ∈ collectList src,
      lookupFS (mergeDirectories src destDir fs) (joinPath destDir rc.1) = some rc.2) ∧
    (∀ p c, lookupFS fs p = some c →
      ∃ c2, lookupFS (mergeDirectories src destDir fs) p = some c2) := by
  have hkeys : (((collectList src).map
      (fun rc => (joinPath destDir rc.1, rc.2))).map Prod.fst).Nodup := by
    rw [List.map_map]
    exact hnd
  refine ⟨?_, ?_, ?_⟩
  · intro p hp
    unfold mergeDirectories
    apply lookupFS_writeList_avoid
    intro kv hkv
    obtain ⟨rc, hrc, rfl⟩ := List.mem_map.mp hkv
    exact hp rc hrc
  · intro rc hrc
    unfold mergeDirectories
    apply lookupFS_writeList_mem ?hm hkeys
    exact List.mem_map_of_mem _ hrc
  · intro p c hc
    by_cases hp : ∀ rc ∈ collectList src, joinPath destDir rc.1 ≠ p
    · refine ⟨c, ?_⟩
      unfold mergeDirectories
      rw [lookupFS_writeList_avoid ?havoid]
      · exact hc
      · intro kv hkv
        obtain ⟨rc, hrc, rfl⟩ := List.mem_map.mp hkv
        exact hp rc hrc
    · push_neg at hp
      obtain ⟨rc, hrc, hrcp⟩ := hp
      refine ⟨rc.2, ?_⟩
      have := (show lookupFS (mergeDirectories src destDir fs) (joinPath destDir rc.1) =
          some rc.2 from by
        unfold mergeDirectories
        exact lookupFS_writeList_mem (List.mem_map_of_mem _ hrc) hkeys)
      rwa [hrcp] at this

/-- Witness for C6: merging a source with a nested file and a top-level
file into a destination that already holds an unrelated file and a file
the source overwrites. -/
theorem C6_witness :
    lookupFS (mergeDirectories
        [("sub".toList, FNode.dir [("f2.txt".toList, FNode.file "NEW".toList)]),
         ("a.txt".toList, FNode.file "A2".toList)]
        "d".toList
        [("d/keep.txt".toList, "K".toList), ("d/a.txt".toList, "OLD".toList)])
      "d/keep.txt".toList = some "K".toList ∧
    lookupFS (mergeDirectories
        [("sub".toList, FNode.dir [("f2.txt".toList, FNode.file "NEW".toList)]),
         ("a.txt".toList, FNode.file "A2".toList)]
        "d".toList
        [("d/keep.txt".toList, "K".toList), ("d/a.txt".toList, "OLD".toList)])
      "d/a.txt".toList = some "A2".toList ∧
    lookupFS (mergeDirectories
        [("sub".toList, FNode.dir [("f2.txt".toList, FNode.file "NEW".toList)]),
         ("a.txt".toList, FNode.file "A2".toList)]
        "d".toList
        [("d/keep.txt".toList, "K".toList), ("d/a.txt".toList, "OLD".toList)])
      "d/sub/f2.txt".toList = some "NEW".toList := by
  have h := C6_theorem
    [("sub".toList, FNode.dir [("f2.txt".toList, FNode.file "NEW".toList)]),
     ("a.txt".toList, FNode.file "A2".toList)]
    "d".toList
    [("d/keep.txt".toList, "K".toList), ("d/a.txt".toList, "OLD".toList)]
    (by decide)
  refine ⟨h.1 _ (by decide), ?_, ?_⟩
  · have h2 := h.2.1 ("a.txt".toList, "A2".toList) (by decide)
    have hkey : joinPath "d".toList "a.txt".toList = "d/a.txt".toList := by decide
    rwa [hkey] at h2
  · have h2 := h.2.1 ("sub/f2.txt".toList, "NEW".toList) (by decide)
    have hkey : joinPath "d".toList "sub/f2.txt".toList = "d/sub/f2.txt".toList := by decide
    rwa [hkey] at h2

/-- C5, amended: if any archive entry has an invalid name (a `..` anywhere
in it, or an absolute path), the extraction as a whole fails; the files
present afterwards are only the previously present files plus files at
joined archive-entry paths — entries written before the failing one remain
written, so "zero files written" holds only when the offending entry comes
first. -/
theorem C5_theorem (destDir : Str) (fs : FS) (entries : List ZipEntry)
    (hbad : ∃ e ∈ entries, exceptIsOk (validateZIPFilePath e.name) = false) :
    (extractZIP destDir fs entries).2.isSome = true ∧
    (∀ p c, lookupFS (extractZIP destDir fs entries).1 p = some c →
      lookupFS fs p = some c ∨
        ∃ e ∈ entries, p = joinPath destDir e.name ∧ c = e.content) := by
  induction entries generalizing fs with
  | nil =>
    obtain ⟨e, hm, _⟩ := hbad
    cases hm
  | cons e rest ih =>
    cases hv : validateZIPFilePath e.name with
    | error er =>
      have hstep : extractZIP destDir fs (e :: rest) = (fs, some er) := by
        unfold extractZIP extractZIPFile
        rw [hv]
      rw [hstep]
      exact ⟨rfl, fun p c hc => Or.inl hc⟩
    | ok u =>
      have hbad2 : ∃ e2 ∈ rest, exceptIsOk (validateZIPFilePath e2.name) = false := by
        obtain ⟨e2, hm2, hval2⟩ := hbad
        cases List.mem_cons.mp hm2 with
        | inl heq =>
          rw [heq, hv] at hval2
          cases hval2
        | inr hm3 => exact ⟨e2, hm3, hval2⟩
      have hfile : extractZIPFile destDir fs e =
          if ((cleanPath destDir ++ ['/']).isPrefixOf (joinPath destDir e.name)) = false ∧
              joinPath destDir e.name ≠ cleanPath destDir then
            .error (.traversal e.name)
          else if e.isDir then .ok fs
          else .ok ((joinPath destDir e.name, e.content) :: fs) := by
        unfold extractZIPFile
        rw [hv]
      have hzip : extractZIP destDir fs (e :: rest) =
          match extractZIPFile destDir fs e with
          | .error er => (fs, some er)
          | .ok fs2 => extractZIP destDir fs2 rest := rfl
      by_cases hsec : ((cleanPath destDir ++ ['/']).isPrefixOf (joinPath destDir e.name)) = false ∧
          joinPath destDir e.name ≠ cleanPath destDir
      · have hstep : extractZIP destDir fs (e :: rest) = (fs, some (.traversal e.name)) := by
          rw [hzip, hfile, if_pos hsec]
        rw [hstep]
        exact ⟨rfl, fun p c hc => Or.inl hc⟩
      · by_cases hdir : e.isDir
        · have hstep : extractZIP destDir fs (e :: rest) = extractZIP destDir fs rest := by
            rw [hzip, hfile, if_neg hsec, if_pos hdir]
          rw [hstep]
          obtain ⟨ha, hb⟩ := ih _ hbad2
          refine ⟨ha, fun p c hc => ?_⟩
          cases hb p c hc with
          | inl h1 => exact Or.inl h1
          | inr h2 =>
            obtain ⟨e2, hm2, hp2⟩ := h2
            exact Or.inr ⟨e2, List.mem_cons_of_mem _ hm2, hp2⟩
        · have hstep : extractZIP destDir fs (e :: rest) =
              extractZIP destDir ((joinPath destDir e.name, e.content) :: fs) rest := by
            rw [hzip, hfile, if_neg hsec, if_neg hdir]
          rw [hstep]
          obtain ⟨ha, hb⟩ := ih _ hbad2
          refine ⟨ha, fun p c hc => ?_⟩
          cases hb p c hc with
          | inl h1 =>
            rw [lookupFS_cons] at h1
            by_cases hpe : p = joinPath destDir e.name
            · rw [if_pos hpe] at h1
              refine Or.inr ⟨e, List.mem_cons_self _ _, hpe, ?_⟩
              injection h1.symm
            · rw [if_neg hpe] at h1
              exact Or.inl h1
          | inr h2 =>
            obtain ⟨e2, hm2, hp2⟩ := h2
            exact Or.inr ⟨e2, List.mem_cons_of_mem _ hm2, hp2⟩

/-- Witness for C5: an archive whose first entry is clean and whose second
entry contains a parent-directory segment. -/
theorem C5_witness :
    (extractZIP "dest".toList []
      [⟨"a.txt".toList, false, "x".toList⟩,
       ⟨"../evil".toList, false, "y".toList⟩]).2.isSome = true ∧
    (∀ p c, lookupFS (extractZIP "dest".toList []
        [⟨"a.txt".toList, false, "x".toList⟩,
         ⟨"../evil".toList, false, "y".toList⟩]).1 p = some c →
      lookupFS ([] : FS) p = some c ∨
        ∃ e ∈ [(⟨"a.txt".toList, false, "x".toList⟩ : ZipEntry),
               ⟨"../evil".toList, false, "y".toList⟩],
          p = joinPath "dest".toList e.name ∧ c = e.content) :=
  C5_theorem "dest".toList []
    [⟨"a.txt".toList, false, "x".toList⟩, ⟨"../evil".toList, false, "y".toList⟩]
    ⟨⟨"../evil".toList, false, "y".toList⟩,
      List.mem_cons_of_mem _ (List.mem_cons_self _ _), by decide⟩

/-- Counterexample for C5 as frozen: the same archive fails as a whole, but
the destination is not left with zero new files — the clean first entry
was already written when the traversal entry was rejected. -/
theorem C5_counterexample :
    (extractZIP "dest".toList []
      [⟨"a.txt".toList, false, "x".toList⟩,
       ⟨"../evil".toList, false, "y".toList⟩]).2.isSome = true ∧
    (extractZIP "dest".toList []
      [⟨"a.txt".toList, false, "x".toList⟩,
       ⟨"../evil".toList, false, "y".toList⟩]).1 =
      [("dest/a.txt".toList, "x".toList)] ∧
    lookupFS (extractZIP "dest".toList []
      [⟨"a.txt".toList, false, "x".toList⟩,
       ⟨"../evil".toList, false, "y".toList⟩]).1 "dest/a.txt".toList =
      some "x".toList ∧
    lookupFS ([] : FS) "dest/a.txt".toList = none := by
  decide

/-- C9, amended: in a mixed-structure placement, a top-level directory
that is not the requested agent's hidden folder and is none of "memory",
"commands", "templates" and "tools" — in particular another agent's hidden
folder — is not ignored: the final copy-through loop merges it, byte for
byte and without template processing, into the target root under its own
name. -/
theorem C9_theorem (proc : Str → Str) (agent extractedPath target : Str)
    (pre post : List (Str × FNode)) (n : Str) (t : List (Str × FNode))
    (hasUnified : Bool) (fs : FS) (r c : Str)
    (hcond : n ≠ '.' :: agent ∧ n ≠ memoryName ∧ n ≠ commandsName ∧
      n ≠ templatesName ∧ n ≠ toolsName)
    (hmem : (r, c) ∈ collectList t)
    (hnd : ((collectList t).map (fun rc => joinPath (joinPath target n) rc.1)).Nodup)
    (hpost : ∀ e ∈ post, ∀ kv ∈ catchAllEntryWrites agent target e,
      kv.1 ≠ joinPath (joinPath target n) r) :
    lookupFS (extractFromMixedStructure proc agent extractedPath target
        (pre ++ (n, FNode.dir t) :: post) hasUnified fs)
      (joinPath (joinPath target n) r) = some c := by
  have hw : catchAllEntryWrites agent target (n, FNode.dir t) =
      (collectList t).map (fun rc => (joinPath (joinPath target n) rc.1, rc.2)) := by
    unfold catchAllEntryWrites
    rw [if_pos (Or.inr hcond)]
  have hmem2 : (joinPath (joinPath target n) r, c) ∈
      catchAllEntryWrites agent target (n, FNode.dir t) := by
    rw [hw]
    exact List.mem_map_of_mem _ hmem
  have hnd2 : ((catchAllEntryWrites agent target (n, FNode.dir t)).map Prod.fst).Nodup := by
    rw [hw, List.map_map]
    exact hnd
  unfold extractFromMixedStructure
  exact lookupFS_applyWrites_at hmem2 hnd2 hpost

/-- Witness for C9's amended theorem: an archive with the requested agent's
folder `.codex` and another agent's folder `.claude`. -/
theorem C9_witness :
    lookupFS (extractFromMixedStructure (fun s => s) "codex".toList "ex".toList "t".toList
        ([(".codex".toList, FNode.dir [("a.md".toList, FNode.file "A".toList)])] ++
          (".claude".toList, FNode.dir [("x.md".toList, FNode.file "X".toList)]) :: [])
        false [])
      (joinPath (joinPath "t".toList ".claude".toList) "x.md".toList) = some "X".toList :=
  C9_theorem (fun s => s) "codex".toList "ex".toList "t".toList
    [(".codex".toList, FNode.dir [("a.md".toList, FNode.file "A".toList)])] []
    ".claude".toList [("x.md".toList, FNode.file "X".toList)] false []
    "x.md".toList "X".toList
    (by decide) (by decide) (by decide) (fun e he => absurd he (List.not_mem_nil e))

/-- Counterexample for C9 as frozen: placing a mixed archive containing
`.codex` and `.claude` for agent `codex` does place the other agent's
folder — `t/.claude/x.md` exists in the target afterwards, so the folder
was not ignored. -/
theorem C9_counterexample :
    lookupFS (extractFromMixedStructure (fun s => s) "codex".toList "ex".toList "t".toList
        [(".codex".toList, FNode.dir [("a.md".toList, FNode.file "A".toList)]),
         (".claude".toList, FNode.dir [("x.md".toList, FNode.file "X".toList)])]
        false [])
      "t/.claude/x.md".toList = some "X".toList ∧
    lookupFS ([] : FS) "t/.claude/x.md".toList = none := by
  decide

theorem applyWrites_filter {α : Type} {f : α → List (Str × Str)} {q : α → Bool}
    {l : List α} {fs : FS} (h : ∀ e ∈ l, q e = false → f e = []) :
    applyWrites f l fs = applyWrites f (l.filter q) fs := by
  induction l generalizing fs with
  | nil => rfl
  | cons e rest ih =>
    have hstep : applyWrites f (e :: rest) fs = applyWrites f rest (writeList fs (f e)) := rfl
    cases hq : q e with
    | true =>
      rw [hstep, List.filter_cons, hq]
      have hstep2 : applyWrites f (e :: rest.filter q) fs =
          applyWrites f (rest.filter q) (writeList fs (f e)) := rfl
      rw [if_pos (by trivial), hstep2]
      exact ih (fun e2 hm => h e2 (List.mem_cons_of_mem _ hm))
    | false =>
      rw [hstep, h e (List.mem_cons_self _ _) hq, List.filter_cons, hq]
      have hnil : writeList fs [] = fs := rfl
      rw [hnil, if_neg (by simp)]
      exact ih (fun e2 hm => h e2 (List.mem_cons_of_mem _ hm))

theorem dirLookup_none_of_all_files {entries : List (Str × FNode)} {name : Str}
    (hall : ∀ e ∈ entries, e.2.isDirB = false) : dirLookup entries name = none := by
  induction entries with
  | nil => rfl
  | cons e rest ih =>
    obtain ⟨n, node⟩ := e
    cases node with
    | file c =>
      unfold dirLookup
      exact ih (fun e2 hm => hall e2 (List.mem_cons_of_mem _ hm))
    | dir es =>
      have := hall (n, FNode.dir es) (List.mem_cons_self _ _)
      simp [FNode.isDirB] at this

theorem dirLookup_filter {entries : List (Str × FNode)} {name : Str} :
    dirLookup (entries.filter (fun e => e.2.isDirB)) name = dirLookup entries name := by
  induction entries with
  | nil => rfl
  | cons e rest ih =>
    obtain ⟨n, node⟩ := e
    cases node with
    | file c =>
      rw [List.filter_cons]
      have : FNode.isDirB (FNode.file c) = false := rfl
      rw [if_neg (by simp [this])]
      exact ih
    | dir es =>
      rw [List.filter_cons]
      have : FNode.isDirB (FNode.dir es) = true := rfl
      rw [if_pos (by simp [this])]
      unfold dirLookup
      by_cases hn : n = name
      · rw [if_pos hn, if_pos hn]
      · rw [if_neg hn, if_neg hn]
        exact ih

/-- C10: unified-structure placement depends only on the top-level
directories of the extraction root — removing every top-level regular file
leaves the result unchanged, and an extraction root consisting only of
regular files places nothing at all (the files are silently dropped).
Directories are placed as coded: a file of a non-memory top-level
directory lands under the agent's hidden folder, a file of the "memory"
directory lands under the target root. -/
theorem C10_theorem (agent unifiedPath target : Str)
    (entries : List (Str × FNode)) (fs : FS) :
    extractFromUnifiedStructure agent unifiedPath target entries fs =
      extractFromUnifiedStructure agent unifiedPath target
        (entries.filter (fun e => e.2.isDirB)) fs ∧
    ((∀ e ∈ entries, e.2.isDirB = false) →
      extractFromUnifiedStructure agent unifiedPath target entries fs = fs) ∧
    (∀ pre post n t r c,
      entries = pre ++ (n, FNode.dir t) :: post →
      n ≠ memoryName →
      (r, c) ∈ collectList t →
      ((collectList t).map (fun rc =>
        joinPath (joinPath (joinPath target ('.' :: agent)) n) rc.1)).Nodup →
      (∀ e ∈ post, ∀ kv ∈ unifiedEntryWrites agent target e,
        kv.1 ≠ joinPath (joinPath (joinPath target ('.' :: agent)) n) r) →
      (∀ rc ∈ collectList ((dirLookup entries memoryName).getD []),
        joinPath (joinPath target memoryName) rc.1 ≠
          joinPath (joinPath (joinPath target ('.' :: agent)) n) r) →
      lookupFS (extractFromUnifiedStructure agent unifiedPath target entries fs)
        (joinPath (joinPath (joinPath target ('.' :: agent)) n) r) = some c) ∧
    (∀ mt r c,
      dirLookup entries memoryName = some mt →
      (r, c) ∈ collectList mt →
      ((collectList mt).map (fun rc => joinPath (joinPath target memoryName) rc.1)).Nodup →
      lookupFS (extractFromUnifiedStructure agent unifiedPath target entries fs)
        (joinPath (joinPath target memoryName) r) = some c) := by
  have hfileW : ∀ e ∈ entries, (fun e2 : Str × FNode => e2.2.isDirB) e = false →
      unifiedEntryWrites agent target e = [] := by
    intro e hm hq
    obtain ⟨n, node⟩ := e
    cases node with
    | file c => rfl
    | dir es => simp [FNode.isDirB] at hq
  refine ⟨?_, ?_, ?_, ?_⟩
  · unfold extractFromUnifiedStructure
    rw [← applyWrites_filter hfileW, dirLookup_filter]
  · intro hall
    unfold extractFromUnifiedStructure
    have h1 : applyWrites (unifiedEntryWrites agent target) entries fs = fs := by
      rw [applyWrites_filter hfileW]
      have : entries.filter (fun e => e.2.isDirB) = [] := by
        rw [List.filter_eq_nil]
        intro e hm
        rw [hall e hm]
        simp
      rw [this]
      rfl
    have h2 : dirLookup entries memoryName = none := dirLookup_none_of_all_files hall
    rw [h1, h2]
  · intro pre post n t r c hsplit hnm hmem hnd hpost hmemdir
    have hw : unifiedEntryWrites agent target (n, FNode.dir t) =
        (collectList t).map (fun rc =>
          (joinPath (joinPath (joinPath target ('.' :: agent)) n) rc.1, rc.2)) := by
      simp only [unifiedEntryWrites]
      rw [if_pos hnm]
    have hmem2 : (joinPath (joinPath (joinPath target ('.' :: agent)) n) r, c) ∈
        unifiedEntryWrites agent target (n, FNode.dir t) := by
      rw [hw]
      exact List.mem_map_of_mem _ hmem
    have hnd2 : ((unifiedEntryWrites agent target (n, FNode.dir t)).map Prod.fst).Nodup := by
      rw [hw, List.map_map]
      exact hnd
    have hcore : lookupFS (applyWrites (unifiedEntryWrites agent target) entries fs)
        (joinPath (joinPath (joinPath target ('.' :: agent)) n) r) = some c := by
      rw [hsplit]
      exact lookupFS_applyWrites_at hmem2 hnd2 hpost
    cases hm : dirLookup entries memoryName with
    | none =>
      have hred : extractFromUnifiedStructure agent unifiedPath target entries fs =
          applyWrites (unifiedEntryWrites agent target) entries fs := by
        unfold extractFromUnifiedStructure
        rw [hm]
      rw [hred]
      exact hcore
    | some es =>
      have hes : collectList ((dirLookup entries memoryName).getD []) = collectList es := by
        rw [hm]
        rfl
      have hred : extractFromUnifiedStructure agent unifiedPath target entries fs =
          writeList (applyWrites (unifiedEntryWrites agent target) entries fs)
            ((collectList es).map (fun rc =>
              (joinPath (joinPath target memoryName) rc.1, rc.2))) := by
        unfold extractFromUnifiedStructure
        rw [hm]
        rfl
      rw [hred, lookupFS_writeList_avoid ?havoid]
      · exact hcore
      · intro kv hkv
        obtain ⟨rc, hrc, rfl⟩ := List.mem_map.mp hkv
        apply hmemdir
        rw [hes]
        exact hrc
  · intro mt r c hm hmem hnd
    have hred : extractFromUnifiedStructure agent unifiedPath target entries fs =
        writeList (applyWrites (unifiedEntryWrites agent target) entries fs)
          ((collectList mt).map (fun rc =>
            (joinPath (joinPath target memoryName) rc.1, rc.2))) := by
      unfold extractFromUnifiedStructure
      rw [hm]
      rfl
    rw [hred]
    refine lookupFS_writeList_mem ?_ ?_
    · exact List.mem_map_of_mem
        (fun rc => (joinPath (joinPath target memoryName) rc.1, rc.2)) hmem
    · rw [List.map_map]
      exact hnd

/-- Witness for C10: a unified extraction root with a "commands" directory,
a "memory" directory and a stray top-level regular file. -/
theorem C10_witness :
    lookupFS (extractFromUnifiedStructure "codex".toList "u".toList "t".toList
        [("commands".toList, FNode.dir [("c.md".toList, FNode.file "C".toList)]),
         ("memory".toList, FNode.dir [("m.md".toList, FNode.file "M".toList)]),
         ("notes.txt".toList, FNode.file "N".toList)] [])
      (joinPath (joinPath (joinPath "t".toList ('.' :: "codex".toList)) "commands".toList)
        "c.md".toList) = some "C".toList ∧
    lookupFS (extractFromUnifiedStructure "codex".toList "u".toList "t".toList
        [("commands".toList, FNode.dir [("c.md".toList, FNode.file "C".toList)]),
         ("memory".toList, FNode.dir [("m.md".toList, FNode.file "M".toList)]),
         ("notes.txt".toList, FNode.file "N".toList)] [])
      (joinPath (joinPath "t".toList "memory".toList) "m.md".toList) = some "M".toList ∧
    extractFromUnifiedStructure "codex".toList "u".toList "t".toList
        [("notes.txt".toList, FNode.file "N".toList)] [] = [] := by
  have h := C10_theorem "codex".toList "u".toList "t".toList
    [("commands".toList, FNode.dir [("c.md".toList, FNode.file "C".toList)]),
     ("memory".toList, FNode.dir [("m.md".toList, FNode.file "M".toList)]),
     ("notes.txt".toList, FNode.file "N".toList)] []
  have h2 := C10_theorem "codex".toList "u".toList "t".toList
    [("notes.txt".toList, FNode.file "N".toList)] []
  refine ⟨?_, ?_, ?_⟩
  · exact h.2.2.1 []
      [("memory".toList, FNode.dir [("m.md".toList, FNode.file "M".toList)]),
       ("notes.txt".toList, FNode.file "N".toList)]
      "commands".toList [("c.md".toList, FNode.file "C".toList)]
      "c.md".toList "C".toList rfl (by decide) (by decide) (by decide)
      (by decide) (by decide)
  · exact h.2.2.2 [("m.md".toList, FNode.file "M".toList)] "m.md".toList "M".toList
      (by rfl) (by decide) (by decide)
  · exact h2.2.1 (by decide)

/-- C7: the cache-resolver emptiness decision matches the specified
definition exactly — a cache root is empty when it does not exist, when
the manifest file is absent, or when every top-level regular file is the
manifest itself; in particular a cache root holding only `.manifest.json`
is empty. -/
theorem C7_theorem :
    isCacheEmpty none = true ∧
    (∀ entries, isCacheEmpty (some entries) = true ↔
      (¬ manifestFilePresent entries ∨ noNonManifestFiles entries)) ∧
    isCacheEmpty (some [⟨manifestName, false⟩]) = true := by
  refine ⟨rfl, ?_, by decide⟩
  intro entries
  have hany : (entries.any (fun e => !e.isDir && e.name == manifestName)) = true ↔
      manifestFilePresent entries := by
    unfold manifestFilePresent
    rw [List.any_eq_true]
    constructor
    · rintro ⟨e, hm2, he⟩
      refine ⟨e, hm2, ?_⟩
      simpa [Bool.and_eq_true, Bool.not_eq_true'] using he
    · rintro ⟨e, hm2, h1, h2⟩
      refine ⟨e, hm2, ?_⟩
      simp [Bool.and_eq_true, Bool.not_eq_true', h1, h2]
  have hcount : (entries.countP (fun e => !e.isDir && !(e.name == manifestName))) = 0 ↔
      noNonManifestFiles entries := by
    unfold noNonManifestFiles
    rw [List.countP_eq_zero]
    constructor
    · intro h e hm2 hd
      by_contra hne
      exact h e hm2 (by simp [Bool.and_eq_true, Bool.not_eq_true', hd, hne])
    · intro h e hm2 hp
      simp only [Bool.and_eq_true, Bool.not_eq_true'] at hp
      obtain ⟨hd, hne⟩ := hp
      rw [beq_eq_false_iff_ne] at hne
      exact hne (h e hm2 hd)
  have hred : isCacheEmpty (some entries) =
      (if (entries.any (fun e => !e.isDir && e.name == manifestName)) = false then true
       else (entries.countP (fun e => !e.isDir && !(e.name == manifestName))) == 0) := rfl
  rw [hred]
  by_cases hm : (entries.any (fun e => !e.isDir && e.name == manifestName)) = false
  · rw [if_pos hm]
    constructor
    · intro _
      left
      intro hpres
      have hx := hany.mpr hpres
      rw [hm] at hx
      cases hx
    · intro _
      rfl
  · rw [if_neg hm]
    have hm2 : (entries.any (fun e => !e.isDir && e.name == manifestName)) = true := by
      cases h2 : entries.any (fun e => !e.isDir && e.name == manifestName) with
      | true => rfl
      | false => exact absurd h2 hm
    constructor
    · intro hc
      right
      rw [← hcount]
      exact beq_iff_eq.mp hc
    · intro hc
      cases hc with
      | inl h1 => exact absurd (hany.mp hm2) h1
      | inr h2 =>
        have hz := hcount.mpr h2
        rw [hz]
        rfl

/-- C8, amended: cache validation succeeds exactly when every manifest
entry names an existing cached file whose freshly computed lower-case hex
digest equals the recorded digest by exact string comparison — the
comparison is case-sensitive, not case-invariant; failures name the
offending path with the expected and actual digests. -/
theorem C8_theorem (files : List (Str × List Nat)) (cacheRoot : Str)
    (manifestEntries : List (Str × Str)) :
    validateCache files cacheRoot manifestEntries = .ok () ↔
      ∀ rc ∈ manifestEntries, ∃ c, lookupFS files (joinPath cacheRoot rc.1) = some c ∧
        bytesToHex (sha256Bytes c) = rc.2 := by
  induction manifestEntries with
  | nil => simp [validateCache]
  | cons rc rest ih =>
    obtain ⟨rel, expected⟩ := rc
    have hstep : validateCache files cacheRoot ((rel, expected) :: rest) =
        match lookupFS files (joinPath cacheRoot rel) with
        | none => .error (.missingFile rel)
        | some content =>
          if bytesToHex (sha256Bytes content) ≠ expected then
            .error (.hashMismatch rel expected (bytesToHex (sha256Bytes content)))
          else validateCache files cacheRoot rest := rfl
    cases hl : lookupFS files (joinPath cacheRoot rel) with
    | none =>
      constructor
      · intro h
        rw [hstep, hl] at h
        exact Except.noConfusion h
      · intro h
        obtain ⟨c, hc, _⟩ := h (rel, expected) (List.mem_cons_self _ _)
        rw [hl] at hc
        cases hc
    | some content =>
      have hstep2 : validateCache files cacheRoot ((rel, expected) :: rest) =
          if bytesToHex (sha256Bytes content) ≠ expected then
            .error (.hashMismatch rel expected (bytesToHex (sha256Bytes content)))
          else validateCache files cacheRoot rest := by
        rw [hstep, hl]
      by_cases hne : bytesToHex (sha256Bytes content) ≠ expected
      · rw [hstep2, if_pos hne]
        constructor
        · intro h
          exact Except.noConfusion h
        · intro h
          obtain ⟨c, hc, hx⟩ := h (rel, expected) (List.mem_cons_self _ _)
          rw [hl] at hc
          injection hc with hcc
          rw [← hcc] at hx
          exact absurd hx hne
      · rw [hstep2, if_neg hne, ih]
        have hEq : bytesToHex (sha256Bytes content) = expected := not_not.mp hne
        constructor
        · intro h rc2 hm
          cases List.mem_cons.mp hm with
          | inl heq =>
            rw [heq]
            exact ⟨content, hl, hEq⟩
          | inr hm2 => exact h rc2 hm2
        · intro h rc2 hm
          exact h rc2 (List.mem_cons_of_mem _ hm)

set_option maxRecDepth 1000000 in
/-- Counterexample for C8 as frozen: a manifest that records the correct
digest of the empty cached file, but upper-cased.  The digests agree up to
case, yet validation reports a hash mismatch, because `ValidateCache`
compares the lower-case computed hex string to the recorded one exactly. -/
theorem C8_counterexample :
    validateCache [("cache/a".toList, ([] : List Nat))] "cache".toList
      [("a".toList,
        "E3B0C44298FC1C149AFBF4C8996FB92427AE41E4649B934CA495991B7852B855".toList)] =
      .error (.hashMismatch "a".toList
        "E3B0C44298FC1C149AFBF4C8996FB92427AE41E4649B934CA495991B7852B855".toList
        "e3b0c44298fc1c149afbf4c8996fb92427ae41e4649b934ca495991b7852b855".toList) ∧
    toLowerStr "E3B0C44298FC1C149AFBF4C8996FB92427AE41E4649B934CA495991B7852B855".toList =
      "e3b0c44298fc1c149afbf4c8996fb92427ae41e4649b934ca495991b7852b855".toList ∧
    bytesToHex (sha256Bytes []) =
      "e3b0c44298fc1c149afbf4c8996fb92427ae41e4649b934ca495991b7852b855".toList := by
  refine ⟨by rfl, by decide, by decide⟩
